import Mathlib

/-!
Verification of the spin-lock primitives in `src/locks/locks.cpp`.

Shallow sequential embedding:
* `SpinLock` (lines 5-35): the `std::atomic_flag` is a `Bool`;
  `test_and_set` returns the old value and stores `true`; `clear` stores
  `false`.  Memory fences have no effect on sequential state and are
  dropped.
* `ReentrantLock32` (lines 87-165): `m_atomic : std::atomic<std::size_t>`
  is a `Nat` (0 = unlocked sentinel, otherwise the hashed thread id);
  `m_refCount : std::int32_t` is an `Int`.  The calling thread's hashed
  identity is passed as an explicit `tid : Nat` parameter.  A failed
  `assert` aborts, modelled by `Option` (`none` = assertion failure).
  The unbounded CAS spin loop in `Acquire` (lines 102-111) takes a fuel
  parameter; `none` means the loop did not terminate within the fuel.
  The loop runs in a context where no other thread mutates `m_atomic`
  (the sequential semantics), so `compare_exchange_weak(0, tid)`
  succeeds exactly when the current word is 0 and otherwise leaves the
  word unchanged.
* For the concurrent mutual-exclusion property of `SpinLock`, an
  interleaving (sequentially consistent) small-step system: `n` threads
  each run `Acquire; read counter; write counter+1; Release` in a loop,
  with the test-and-set, the counter read, the counter write and the
  clear as separate atomic steps.

Evident transcription typos in the source (`m_RefCount` for
`m_refCount`, `std_size_t`/`atd::size_t` for `std::size_t`, `acrquired`
for `acquired`, the ill-typed fence argument on line 118) are read as
their intended tokens; they do not change the control flow.  The
condition on line 98, `if (m_atomic.load(...))`, is kept exactly as
written: it tests "owner word nonzero", not "owner word ≠ tid".
-/

/-- State of `SpinLock` (line 7): the single `std::atomic_flag`. -/
structure SpinLock where
  m_atomic : Bool
  deriving DecidableEq, Repr

/-- Constructor `SpinLock()` (line 9): flag initialised to `false`. -/
def SpinLock.ctor : SpinLock := ⟨false⟩

/-- `SpinLock::TryAcquire` (lines 10-16): `test_and_set` returns the old
flag value (`alreadyLocked`) and stores `true`; the method returns
`!alreadyLocked` paired with the new state. -/
def SpinLock.TryAcquire (l : SpinLock) : Bool × SpinLock :=
  (!l.m_atomic, ⟨true⟩)

/-- `SpinLock::Release` (lines 29-34): `clear` stores `false`. -/
def SpinLock.Release (_ : SpinLock) : SpinLock := ⟨false⟩

/-- State of `ReentrantLock32` (lines 89-90): owner word and hold count. -/
structure ReentrantLock32 where
  m_atomic : Nat
  m_refCount : Int
  deriving DecidableEq, Repr

/-- Constructor `ReentrantLock32()` (line 92): owner word 0, count 0. -/
def ReentrantLock32.ctor : ReentrantLock32 := ⟨0, 0⟩

/-- The CAS spin loop of `ReentrantLock32::Acquire` (lines 101-111), run
with no concurrent mutation of the owner word: each iteration attempts
`compare_exchange_weak(unlockValue = 0, tid)`, which succeeds exactly
when `owner = 0`; on failure the word is unchanged and the loop retries.
Fuel bounds the number of iterations; `none` means the loop was still
spinning when the fuel ran out. -/
def ReentrantLock32.acquireSpin (tid owner : Nat) : Nat → Option Nat
  | 0 => none
  | fuel + 1 =>
    if owner = 0 then some tid else ReentrantLock32.acquireSpin tid owner fuel

/-- `ReentrantLock32::Acquire` (lines 93-119): if the owner word is
nonzero (line 98, as written in the source), spin on the CAS; then
increment `m_refCount`.  If the owner word is 0 the `if` body is
skipped and only the count is incremented. -/
def ReentrantLock32.Acquire (tid : Nat) (l : ReentrantLock32) (fuel : Nat) :
    Option ReentrantLock32 :=
  if l.m_atomic ≠ 0 then
    match ReentrantLock32.acquireSpin tid l.m_atomic fuel with
    | some owner => some ⟨owner, l.m_refCount + 1⟩
    | none => none
  else
    some ⟨l.m_atomic, l.m_refCount + 1⟩

/-- `ReentrantLock32::Release` (lines 121-138): `assert(actual == tid)`
(abort modelled as `none`), then decrement `m_refCount`; if the result
is 0 store 0 into the owner word, otherwise leave it unchanged. -/
def ReentrantLock32.Release (tid : Nat) (l : ReentrantLock32) :
    Option ReentrantLock32 :=
  if l.m_atomic = tid then
    if l.m_refCount - 1 = 0 then some ⟨0, l.m_refCount - 1⟩
    else some ⟨l.m_atomic, l.m_refCount - 1⟩
  else none

/-- `ReentrantLock32::TryAcquire` (lines 139-165): fast path when the
owner word already equals `tid`; otherwise a single
`compare_exchange_strong(0, tid)`; on either success increment
`m_refCount`, on failure change nothing. -/
def ReentrantLock32.TryAcquire (tid : Nat) (l : ReentrantLock32) :
    Bool × ReentrantLock32 :=
  if l.m_atomic = tid then (true, ⟨l.m_atomic, l.m_refCount + 1⟩)
  else if l.m_atomic = 0 then (true, ⟨tid, l.m_refCount + 1⟩)
  else (false, l)

/-- The spec's state invariant for `ReentrantLock32`:
`holdCount > 0` if and only if `owner != 0`. -/
def ReentrantLock32.Inv (l : ReentrantLock32) : Prop :=
  0 < l.m_refCount ↔ l.m_atomic ≠ 0

/-- Program counter of a client thread running the counter-increment
loop `Acquire; X = X + 1; Release` against a shared `SpinLock`, with
the load and the store of `X` as separate steps (so that a lost update
is expressible). -/
inductive PC
  | acq
  | rd
  | wr
  | rel
  | done
  deriving DecidableEq, Repr

/-- A client thread: program counter, the register holding the loaded
counter value, and the number of loop iterations still to run
(counting the current one). -/
structure Th where
  pc : PC
  reg : Nat
  rem : Nat
  deriving DecidableEq, Repr

/-- The whole interleaved system: the `SpinLock` flag, the shared
counter, and `n` client threads. -/
structure Sys (n : Nat) where
  flag : Bool
  ctr : Nat
  ths : Fin n → Th
  deriving DecidableEq

/-- A thread holds the lock from its successful test-and-set until its
`Release` step (program counters `rd`, `wr`, `rel`). -/
def Th.holding (t : Th) : Prop :=
  t.pc = PC.rd ∨ t.pc = PC.wr ∨ t.pc = PC.rel

/-- Counter increments this thread has yet to perform: `rem` full
iterations, minus the one already written when the thread sits between
its write and its release. -/
def Th.wleft (t : Th) : Nat :=
  if t.pc = PC.done then 0
  else if t.pc = PC.rel then t.rem - 1
  else t.rem

/-- Initial thread state for `k` requested iterations. -/
def initTh (k : Nat) : Th :=
  if k = 0 then ⟨PC.done, 0, 0⟩ else ⟨PC.acq, 0, k⟩

/-- Initial system: fresh `SpinLock` (flag clear), counter 0, thread
`i` due `ks i` iterations. -/
def initSys (n : Nat) (ks : Fin n → Nat) : Sys n :=
  ⟨false, 0, fun i => initTh (ks i)⟩

/-- One atomic step of thread `i`.  At `acq` the thread runs
`SpinLock::TryAcquire`: on success (the flag was clear) it enters the
critical section, on failure the flag stays set and the thread retries
later.  At `rd` it loads the counter into its register, at `wr` it
stores register + 1, at `rel` it runs `SpinLock::Release`, decrements
its iteration budget and either loops or finishes. -/
def stepThread {n : Nat} (s : Sys n) (i : Fin n) : Sys n :=
  if (s.ths i).pc = PC.acq then
    if (SpinLock.TryAcquire ⟨s.flag⟩).1 then
      ⟨(SpinLock.TryAcquire ⟨s.flag⟩).2.m_atomic, s.ctr,
        Function.update s.ths i ⟨PC.rd, (s.ths i).reg, (s.ths i).rem⟩⟩
    else
      ⟨(SpinLock.TryAcquire ⟨s.flag⟩).2.m_atomic, s.ctr, s.ths⟩
  else if (s.ths i).pc = PC.rd then
    ⟨s.flag, s.ctr, Function.update s.ths i ⟨PC.wr, s.ctr, (s.ths i).rem⟩⟩
  else if (s.ths i).pc = PC.wr then
    ⟨s.flag, (s.ths i).reg + 1,
      Function.update s.ths i ⟨PC.rel, (s.ths i).reg, (s.ths i).rem⟩⟩
  else if (s.ths i).pc = PC.rel then
    ⟨(SpinLock.Release ⟨s.flag⟩).m_atomic, s.ctr,
      Function.update s.ths i
        ⟨if (s.ths i).rem - 1 = 0 then PC.done else PC.acq,
         (s.ths i).reg, (s.ths i).rem - 1⟩⟩
  else s

/-- Interleaving: some thread takes a step. -/
def Step {n : Nat} (s s' : Sys n) : Prop :=
  ∃ i : Fin n, stepThread s i = s'

/-- Reachability under any interleaving. -/
def Reaches {n : Nat} (s s' : Sys n) : Prop :=
  Relation.ReflTransGen Step s s'

/-- Inductive system invariant: at most one thread is inside the
acquire/release pair, the flag is set exactly when some thread is, the
register of a thread about to write equals the counter, every
unfinished thread has at least one iteration left, and the counter plus
all outstanding increments is the constant total `C`. -/
structure SysInv {n : Nat} (C : Nat) (s : Sys n) : Prop where
  mutex : ∀ i j : Fin n, (s.ths i).holding → (s.ths j).holding → i = j
  flagIff : s.flag = true ↔ ∃ i : Fin n, (s.ths i).holding
  regCtr : ∀ i : Fin n, (s.ths i).pc = PC.wr → (s.ths i).reg = s.ctr
  remPos : ∀ i : Fin n, (s.ths i).pc ≠ PC.done → 1 ≤ (s.ths i).rem
  total : s.ctr + ∑ j : Fin n, (s.ths j).wleft = C

/-- C1: the claim says `Acquire` on an Unlocked lock yields owner word
`tid` and count 1; the code (line 98 tests "nonzero", not "≠ tid")
skips the CAS entirely when the owner word is 0, so for every `tid` and
every fuel the result keeps the owner word at 0 while the count becomes
1 — the lock is never marked owned. -/
theorem acquire_unlocked_leaves_owner_sentinel (tid fuel : Nat) :
    ReentrantLock32.Acquire tid ReentrantLock32.ctor fuel =
      some ⟨0, 1⟩ := by
  simp [ReentrantLock32.Acquire, ReentrantLock32.ctor]

/-- C2: the claim says an owner re-acquiring takes the fast path and
returns; in the code the owner (owner word = `tid ≠ 0`) enters the CAS
spin loop, whose CAS from 0 can never succeed while the word holds
`tid`, so `Acquire` fails to terminate for every fuel bound. -/
theorem acquire_by_owner_never_returns (tid : Nat) (rc : Int) (fuel : Nat)
    (htid : tid ≠ 0) (hrc : 1 ≤ rc) :
    ReentrantLock32.Acquire tid ⟨tid, rc⟩ fuel = none := by
  have hspin : ∀ f : Nat, ReentrantLock32.acquireSpin tid tid f = none := by
    intro f
    induction f with
    | zero => rfl
    | succ f ih => simp [ReentrantLock32.acquireSpin, htid, ih]
  simp [ReentrantLock32.Acquire, htid, hspin fuel]

/-- C2 witness: a concrete owner (hashed id 7, hold count 1) calling
`Acquire` again gets no result even with fuel 100. -/
theorem acquire_by_owner_never_returns_witness :
    ReentrantLock32.Acquire 7 ⟨7, 1⟩ 100 = none :=
  acquire_by_owner_never_returns 7 1 100 (by decide) (by decide)

/-- C3: the invariant `holdCount > 0 ↔ owner ≠ 0` holds of the freshly
constructed lock but is destroyed by the very first (contract-
following) `Acquire`: the resulting state has count 1 and owner word 0. -/
theorem inv_holds_init_broken_by_acquire :
    ReentrantLock32.Inv ReentrantLock32.ctor ∧
    ReentrantLock32.Acquire 7 ReentrantLock32.ctor 0 = some ⟨0, 1⟩ ∧
    ¬ ReentrantLock32.Inv ⟨0, 1⟩ := by
  refine ⟨?_, ?_, ?_⟩
  · simp [ReentrantLock32.Inv, ReentrantLock32.ctor]
  · simp [ReentrantLock32.Acquire, ReentrantLock32.ctor]
  · simp [ReentrantLock32.Inv]

/-- C4: `TryAcquire` by thread `tid` (nonzero identity) on a state
satisfying the unlocked-side contract (`owner = 0 → count = 0`):
already-owner fast path increments the count and returns `true`;
otherwise, on an unlocked word the single CAS succeeds leaving the
count at exactly 1; on a word owned by another thread it returns
`false` with the state unchanged. -/
theorem tryAcquire_reentrant_cas_spec (tid : Nat) (l : ReentrantLock32)
    (htid : tid ≠ 0) (hzero : l.m_atomic = 0 → l.m_refCount = 0) :
    (l.m_atomic = tid →
      ReentrantLock32.TryAcquire tid l = (true, ⟨tid, l.m_refCount + 1⟩)) ∧
    (l.m_atomic ≠ tid → l.m_atomic = 0 →
      ReentrantLock32.TryAcquire tid l = (true, ⟨tid, 1⟩)) ∧
    (l.m_atomic ≠ tid → l.m_atomic ≠ 0 →
      ReentrantLock32.TryAcquire tid l = (false, l)) := by
  refine ⟨?_, ?_, ?_⟩
  · intro h
    simp [ReentrantLock32.TryAcquire, h]
  · intro hne h0
    simp [ReentrantLock32.TryAcquire, hne, h0, hzero h0]
  · intro hne h0
    simp [ReentrantLock32.TryAcquire, hne, h0]

/-- C4 witness: thread with hashed id 3 on a fresh (unlocked) lock; the
CAS path succeeds and leaves the hold count at exactly 1. -/
theorem tryAcquire_reentrant_cas_spec_witness :
    ReentrantLock32.TryAcquire 3 ⟨0, 0⟩ = (true, ⟨3, 1⟩) :=
  (tryAcquire_reentrant_cas_spec 3 ⟨0, 0⟩ (by decide)
    (fun _ => rfl)).2.1 (by decide) rfl

/-- C5: `Release` by a thread whose identity differs from the owner word
(including a release of an Unlocked lock, where the word is 0) hits the
`assert(actual == tid)` (modelled as `none`) and never returns silently. -/
theorem release_by_nonowner_asserts (tid : Nat) (l : ReentrantLock32)
    (h : l.m_atomic ≠ tid) :
    ReentrantLock32.Release tid l = none := by
  simp [ReentrantLock32.Release, h]

/-- C5 witness: thread with hashed id 1 releasing a fresh (unlocked)
lock trips the assertion. -/
theorem release_by_nonowner_asserts_witness :
    ReentrantLock32.Release 1 ReentrantLock32.ctor = none :=
  release_by_nonowner_asserts 1 ReentrantLock32.ctor (by decide)

/-- C6: the claim's consequence fails at N = 1: one `Acquire` on the
fresh lock leaves the owner word at 0 (count 1), so the single matching
`Release` finds `actual = 0 ≠ tid` and trips the assertion instead of
returning the lock to Unlocked. -/
theorem n_acquire_n_release_asserts :
    ReentrantLock32.Acquire 7 ReentrantLock32.ctor 0 = some ⟨0, 1⟩ ∧
    ReentrantLock32.Release 7 ⟨0, 1⟩ = none := by
  constructor
  · simp [ReentrantLock32.Acquire, ReentrantLock32.ctor]
  · simp [ReentrantLock32.Release]

/-- C8: `SpinLock::TryAcquire` performs the one test-and-set: it returns
`true` exactly when the flag was clear (the caller just made the
Unlocked → Locked transition), and the flag is set afterwards in every
case. -/
theorem spinLock_tryAcquire_tas_spec (l : SpinLock) :
    ((SpinLock.TryAcquire l).1 = true ↔ l.m_atomic = false) ∧
    (SpinLock.TryAcquire l).2.m_atomic = true := by
  cases l with
  | mk b => cases b <;> simp [SpinLock.TryAcquire]

/-- C10: a freshly constructed `SpinLock` is Unlocked: the first
`TryAcquire` on it returns `true`. -/
theorem fresh_spinLock_first_tryAcquire_true :
    (SpinLock.TryAcquire SpinLock.ctor).1 = true := rfl

/-- A thread at `acq` or `done` is not inside the lock. -/
theorem not_holding_of_acq {t : Th} (h : t.pc = PC.acq) : ¬ t.holding := by
  simp [Th.holding, h]

/-- A finished thread is not inside the lock. -/
theorem not_holding_of_done {t : Th} (h : t.pc = PC.done) : ¬ t.holding := by
  simp [Th.holding, h]

/-- If every thread other than `i` is outside the lock, any two holders
coincide. -/
theorem mutex_of_only {n : Nat} (ths : Fin n → Th) (i : Fin n)
    (h : ∀ j, j ≠ i → ¬ (ths j).holding) :
    ∀ j k, (ths j).holding → (ths k).holding → j = k := by
  intro j k hj hk
  by_cases hji : j = i
  · by_cases hki : k = i
    · rw [hji, hki]
    · exact absurd hk (h k hki)
  · exact absurd hj (h j hji)

/-- Updating one thread changes the sum of outstanding increments by
swapping that thread's contribution. -/
theorem sum_wleft_update {n : Nat} (ths : Fin n → Th) (i : Fin n) (t : Th) :
    (∑ j : Fin n, (Function.update ths i t j).wleft) + (ths i).wleft
      = (∑ j : Fin n, (ths j).wleft) + t.wleft := by
  have h1 : ∀ j, (Function.update ths i t j).wleft
      = Function.update (fun j => (ths j).wleft) i t.wleft j := by
    intro j
    by_cases hj : j = i
    · subst hj; simp
    · simp [Function.update_noteq hj]
  rw [Finset.sum_congr rfl (fun j _ => h1 j),
    Finset.sum_update_of_mem (Finset.mem_univ i),
    Finset.sum_eq_add_sum_diff_singleton (Finset.mem_univ i)
      (fun j => (ths j).wleft)]
  omega

/-- Invariant preservation, `acq` step. -/
theorem sysInv_step_acq {n C : Nat} {s : Sys n} {i : Fin n}
    (hinv : SysInv C s) (hpc : (s.ths i).pc = PC.acq) :
    SysInv C (stepThread s i) := by
  by_cases hflag : s.flag
  · have hstep : stepThread s i = s := by
      simp [stepThread, hpc, SpinLock.TryAcquire, hflag]
      rw [← hflag]
    rw [hstep]; exact hinv
  · have hflag' : s.flag = false := by simpa using hflag
    have hnone : ∀ j, ¬ (s.ths j).holding := by
      intro j hj
      have hft := hinv.flagIff.mpr ⟨j, hj⟩
      exact absurd (hflag' ▸ hft) (by decide)
    have hstep : stepThread s i =
        ⟨true, s.ctr,
          Function.update s.ths i ⟨PC.rd, (s.ths i).reg, (s.ths i).rem⟩⟩ := by
      simp [stepThread, hpc, SpinLock.TryAcquire, hflag']
    rw [hstep]
    have hothers : ∀ j, j ≠ i →
        ¬ ((Function.update s.ths i
            ⟨PC.rd, (s.ths i).reg, (s.ths i).rem⟩) j).holding := by
      intro j hj
      rw [Function.update_noteq hj]
      exact hnone j
    refine ⟨mutex_of_only _ i hothers, ?_, ?_, ?_, ?_⟩
    · refine iff_of_true rfl ⟨i, ?_⟩
      simp [Th.holding]
    · intro j hj
      by_cases hji : j = i
      · subst hji; simp at hj
      · dsimp only at hj ⊢
        rw [Function.update_noteq hji] at hj
        exact absurd (Or.inr (Or.inl hj)) (hnone j)
    · intro j hj
      by_cases hji : j = i
      · subst hji
        dsimp only
        rw [Function.update_same]
        exact hinv.remPos j (by simp [hpc])
      · dsimp only at hj ⊢
        rw [Function.update_noteq hji] at hj ⊢
        exact hinv.remPos j hj
    · dsimp only
      have hsum := sum_wleft_update s.ths i ⟨PC.rd, (s.ths i).reg, (s.ths i).rem⟩
      have h1 : (Th.mk PC.rd (s.ths i).reg (s.ths i).rem).wleft
          = (s.ths i).rem := by
        simp [Th.wleft]
      have h2 : (s.ths i).wleft = (s.ths i).rem := by
        simp [Th.wleft, hpc]
      have ht := hinv.total
      simp only [h1, h2] at hsum
      omega

/-- Invariant preservation, `rd` step (the holder loads the counter). -/
theorem sysInv_step_rd {n C : Nat} {s : Sys n} {i : Fin n}
    (hinv : SysInv C s) (hpc : (s.ths i).pc = PC.rd) :
    SysInv C (stepThread s i) := by
  have hold_i : (s.ths i).holding := Or.inl hpc
  have hft : s.flag = true := hinv.flagIff.mpr ⟨i, hold_i⟩
  have hothers : ∀ j, j ≠ i → ¬ (s.ths j).holding := by
    intro j hji hj
    exact hji (hinv.mutex j i hj hold_i)
  have hstep : stepThread s i =
      ⟨s.flag, s.ctr,
        Function.update s.ths i ⟨PC.wr, s.ctr, (s.ths i).rem⟩⟩ := by
    simp [stepThread, hpc]
  rw [hstep]
  have hothers' : ∀ j, j ≠ i →
      ¬ ((Function.update s.ths i ⟨PC.wr, s.ctr, (s.ths i).rem⟩) j).holding := by
    intro j hji
    rw [Function.update_noteq hji]
    exact hothers j hji
  refine ⟨mutex_of_only _ i hothers', ?_, ?_, ?_, ?_⟩
  · refine iff_of_true hft ⟨i, ?_⟩
    simp [Th.holding]
  · intro j hj
    by_cases hji : j = i
    · subst hji
      dsimp only
      rw [Function.update_same]
    · dsimp only at hj ⊢
      rw [Function.update_noteq hji] at hj
      exact absurd (Or.inr (Or.inl hj)) (hothers j hji)
  · intro j hj
    by_cases hji : j = i
    · subst hji
      dsimp only
      rw [Function.update_same]
      exact hinv.remPos j (by simp [hpc])
    · dsimp only at hj ⊢
      rw [Function.update_noteq hji] at hj ⊢
      exact hinv.remPos j hj
  · dsimp only
    have hsum := sum_wleft_update s.ths i ⟨PC.wr, s.ctr, (s.ths i).rem⟩
    have h1 : (Th.mk PC.wr s.ctr (s.ths i).rem).wleft = (s.ths i).rem := by
      simp [Th.wleft]
    have h2 : (s.ths i).wleft = (s.ths i).rem := by
      simp [Th.wleft, hpc]
    have ht := hinv.total
    simp only [h1, h2] at hsum
    omega

/-- Invariant preservation, `wr` step (the holder stores register + 1). -/
theorem sysInv_step_wr {n C : Nat} {s : Sys n} {i : Fin n}
    (hinv : SysInv C s) (hpc : (s.ths i).pc = PC.wr) :
    SysInv C (stepThread s i) := by
  have hold_i : (s.ths i).holding := Or.inr (Or.inl hpc)
  have hft : s.flag = true := hinv.flagIff.mpr ⟨i, hold_i⟩
  have hreg : (s.ths i).reg = s.ctr := hinv.regCtr i hpc
  have hrem : 1 ≤ (s.ths i).rem := hinv.remPos i (by simp [hpc])
  have hothers : ∀ j, j ≠ i → ¬ (s.ths j).holding := by
    intro j hji hj
    exact hji (hinv.mutex j i hj hold_i)
  have hstep : stepThread s i =
      ⟨s.flag, (s.ths i).reg + 1,
        Function.update s.ths i ⟨PC.rel, (s.ths i).reg, (s.ths i).rem⟩⟩ := by
    simp [stepThread, hpc]
  rw [hstep]
  have hothers' : ∀ j, j ≠ i →
      ¬ ((Function.update s.ths i
          ⟨PC.rel, (s.ths i).reg, (s.ths i).rem⟩) j).holding := by
    intro j hji
    rw [Function.update_noteq hji]
    exact hothers j hji
  refine ⟨mutex_of_only _ i hothers', ?_, ?_, ?_, ?_⟩
  · refine iff_of_true hft ⟨i, ?_⟩
    simp [Th.holding]
  · intro j hj
    by_cases hji : j = i
    · subst hji
      simp at hj
    · dsimp only at hj ⊢
      rw [Function.update_noteq hji] at hj
      exact absurd (Or.inr (Or.inl hj)) (hothers j hji)
  · intro j hj
    by_cases hji : j = i
    · subst hji
      dsimp only
      rw [Function.update_same]
      exact hinv.remPos j (by simp [hpc])
    · dsimp only at hj ⊢
      rw [Function.update_noteq hji] at hj ⊢
      exact hinv.remPos j hj
  · dsimp only
    have hsum := sum_wleft_update s.ths i ⟨PC.rel, (s.ths i).reg, (s.ths i).rem⟩
    have h1 : (Th.mk PC.rel (s.ths i).reg (s.ths i).rem).wleft
        = (s.ths i).rem - 1 := by
      simp [Th.wleft]
    have h2 : (s.ths i).wleft = (s.ths i).rem := by
      simp [Th.wleft, hpc]
    have ht := hinv.total
    simp only [h1, h2] at hsum
    omega

/-- Invariant preservation, `rel` step (the holder clears the flag and
either loops or finishes). -/
theorem sysInv_step_rel {n C : Nat} {s : Sys n} {i : Fin n}
    (hinv : SysInv C s) (hpc : (s.ths i).pc = PC.rel) :
    SysInv C (stepThread s i) := by
  have hold_i : (s.ths i).holding := Or.inr (Or.inr hpc)
  have hrem : 1 ≤ (s.ths i).rem := hinv.remPos i (by simp [hpc])
  have hothers : ∀ j, j ≠ i → ¬ (s.ths j).holding := by
    intro j hji hj
    exact hji (hinv.mutex j i hj hold_i)
  have hstep : stepThread s i =
      ⟨false, s.ctr,
        Function.update s.ths i
          ⟨if (s.ths i).rem - 1 = 0 then PC.done else PC.acq,
           (s.ths i).reg, (s.ths i).rem - 1⟩⟩ := by
    simp [stepThread, hpc, SpinLock.Release]
  rw [hstep]
  have hnone' : ∀ j,
      ¬ ((Function.update s.ths i
          ⟨if (s.ths i).rem - 1 = 0 then PC.done else PC.acq,
           (s.ths i).reg, (s.ths i).rem - 1⟩) j).holding := by
    intro j
    by_cases hji : j = i
    · subst hji
      rw [Function.update_same]
      by_cases h0 : (s.ths j).rem - 1 = 0 <;> simp [Th.holding, h0]
    · rw [Function.update_noteq hji]
      exact hothers j hji
  refine ⟨fun j k hj _ => absurd hj (hnone' j), ?_, ?_, ?_, ?_⟩
  · exact iff_of_false (by simp) (by rintro ⟨j, hj⟩; exact hnone' j hj)
  · intro j hj
    dsimp only at hj
    exact absurd (Or.inr (Or.inl hj)) (hnone' j)
  · intro j hj
    by_cases hji : j = i
    · subst hji
      dsimp only at hj ⊢
      rw [Function.update_same] at hj ⊢
      dsimp only at hj ⊢
      by_cases h0 : (s.ths j).rem - 1 = 0
      · simp [h0] at hj
      · omega
    · dsimp only at hj ⊢
      rw [Function.update_noteq hji] at hj ⊢
      exact hinv.remPos j hj
  · dsimp only
    have hsum := sum_wleft_update s.ths i
      ⟨if (s.ths i).rem - 1 = 0 then PC.done else PC.acq,
       (s.ths i).reg, (s.ths i).rem - 1⟩
    have h1 : (Th.mk (if (s.ths i).rem - 1 = 0 then PC.done else PC.acq)
        (s.ths i).reg ((s.ths i).rem - 1)).wleft = (s.ths i).rem - 1 := by
      by_cases h0 : (s.ths i).rem - 1 = 0 <;> simp [Th.wleft, h0]
    have h2 : (s.ths i).wleft = (s.ths i).rem - 1 := by
      simp [Th.wleft, hpc]
    have ht := hinv.total
    simp only [h1, h2] at hsum
    omega

/-- Invariant preservation over a single interleaving step. -/
theorem sysInv_step {n C : Nat} {s s' : Sys n}
    (hinv : SysInv C s) (h : Step s s') : SysInv C s' := by
  obtain ⟨i, rfl⟩ := h
  cases hpc : (s.ths i).pc with
  | acq => exact sysInv_step_acq hinv hpc
  | rd => exact sysInv_step_rd hinv hpc
  | wr => exact sysInv_step_wr hinv hpc
  | rel => exact sysInv_step_rel hinv hpc
  | done =>
    have hstep : stepThread s i = s := by
      simp [stepThread, hpc]
    rw [hstep]
    exact hinv

/-- An initial thread is outside the lock. -/
theorem initTh_not_holding (k : Nat) : ¬ (initTh k).holding := by
  by_cases h : k = 0 <;> simp [initTh, h, Th.holding]

/-- An initial thread still owes all `k` of its increments. -/
theorem initTh_wleft (k : Nat) : (initTh k).wleft = k := by
  by_cases h : k = 0 <;> simp [initTh, h, Th.wleft]

/-- The invariant holds initially, with total `∑ ks`. -/
theorem sysInv_init {n : Nat} (ks : Fin n → Nat) :
    SysInv (∑ j : Fin n, ks j) (initSys n ks) := by
  refine ⟨?_, ?_, ?_, ?_, ?_⟩
  · intro j k hj _
    exact absurd hj (initTh_not_holding _)
  · refine iff_of_false (by simp [initSys]) ?_
    rintro ⟨j, hj⟩
    exact initTh_not_holding _ hj
  · intro j hj
    dsimp only [initSys] at hj
    by_cases h : ks j = 0 <;> simp [initTh, h] at hj
  · intro j hj
    dsimp only [initSys] at hj ⊢
    by_cases h : ks j = 0
    · simp [initTh, h] at hj
    · simp [initTh, h]
      omega
  · dsimp only [initSys]
    simp [initTh_wleft]

/-- The invariant holds at every reachable state. -/
theorem sysInv_reaches {n C : Nat} {s s' : Sys n}
    (hinv : SysInv C s) (h : Reaches s s') : SysInv C s' := by
  induction h with
  | refl => exact hinv
  | tail _ hstep ih => exact sysInv_step ih hstep

/-- C9: in every state reachable under any interleaving of any number
of threads running the locked counter-increment loop, at most one
thread is between its successful acquire and its release; and when all
threads have finished, the shared counter equals the total number of
increments attempted (no lost updates). -/
theorem spinLock_mutual_exclusion_counter {n : Nat} (ks : Fin n → Nat)
    (s : Sys n) (h : Reaches (initSys n ks) s) :
    (∀ i j : Fin n, (s.ths i).holding → (s.ths j).holding → i = j) ∧
    ((∀ i : Fin n, (s.ths i).pc = PC.done) → s.ctr = ∑ j : Fin n, ks j) := by
  have hinv := sysInv_reaches (sysInv_init ks) h
  refine ⟨hinv.mutex, fun hdone => ?_⟩
  have hz : ∑ j : Fin n, ((s.ths j).wleft) = 0 :=
    Finset.sum_eq_zero (fun j _ => by simp [Th.wleft, hdone j])
  have ht := hinv.total
  omega

/-- Updating the only thread of a one-thread system yields a constant
thread family. -/
theorem update_const_fin1 (f : Fin 1 → Th) (t : Th) :
    Function.update f 0 t = fun _ => t := by
  funext x
  rw [Fin.eq_zero x, Function.update_same]

/-- C9 witness: one thread, one iteration, the four-step trace
acquire / read / write / release; the final counter is 1, the total
requested. -/
theorem spinLock_mutual_exclusion_counter_witness :
    (⟨false, 1, fun _ => ⟨PC.done, 0, 0⟩⟩ : Sys 1).ctr
      = ∑ j : Fin 1, (fun _ : Fin 1 => 1) j := by
  have h1 : Step (initSys 1 (fun _ => 1))
      ⟨true, 0, fun _ => ⟨PC.rd, 0, 1⟩⟩ :=
    ⟨0, by simp [stepThread, initSys, initTh, SpinLock.TryAcquire,
      update_const_fin1]⟩
  have h2 : Step (⟨true, 0, fun _ => ⟨PC.rd, 0, 1⟩⟩ : Sys 1)
      ⟨true, 0, fun _ => ⟨PC.wr, 0, 1⟩⟩ :=
    ⟨0, by simp [stepThread, SpinLock.TryAcquire, update_const_fin1]⟩
  have h3 : Step (⟨true, 0, fun _ => ⟨PC.wr, 0, 1⟩⟩ : Sys 1)
      ⟨true, 1, fun _ => ⟨PC.rel, 0, 1⟩⟩ :=
    ⟨0, by simp [stepThread, SpinLock.TryAcquire, update_const_fin1]⟩
  have h4 : Step (⟨true, 1, fun _ => ⟨PC.rel, 0, 1⟩⟩ : Sys 1)
      ⟨false, 1, fun _ => ⟨PC.done, 0, 0⟩⟩ :=
    ⟨0, by simp [stepThread, SpinLock.TryAcquire, SpinLock.Release,
      update_const_fin1]⟩
  have hr : Reaches (initSys 1 (fun _ => 1))
      ⟨false, 1, fun _ => ⟨PC.done, 0, 0⟩⟩ :=
    Relation.ReflTransGen.head h1 (Relation.ReflTransGen.head h2
      (Relation.ReflTransGen.head h3 (Relation.ReflTransGen.single h4)))
  exact (spinLock_mutual_exclusion_counter (fun _ => 1)
    ⟨false, 1, fun _ => ⟨PC.done, 0, 0⟩⟩ hr).2 (fun i => rfl)
